import Mathlib

/-!
Shallow embedding of the keyword-enrichment pipeline in `main.py`
(`Sonali1701/Cube_task`).

Modelled components:
* `batchChunks` / `batchE` — the `batch(iterable, n)` generator (lines 104-110).
  `islice(it, n)` with `n = 0` yields an empty list on the first round, so the
  generator stops at once without error; a negative `n` makes `islice` raise
  `ValueError` before any batch is produced.  `batchE` carries the `Int`-sized
  argument and that error; `batchChunks` is the non-negative core.
* `fetch_google_trends` (lines 113-156) — the per-batch retry/backoff loop.
  The external provider is an injected function `prov : Nat → Nat → Option Df`
  giving, for a (1-based) batch number and a 0-based attempt counter value,
  either `none` (the call raised) or `some d` (the returned dataframe).  A
  dataframe is a list of columns, each a keyword with its time series; the
  source raises `ValueError "Empty dataframe returned"` on an empty dataframe,
  which lands in the same `except` handler as a provider exception.  Blocking
  calls (`time.sleep`) and attempts are recorded as a `FetchEv` trace.
* `get_cpc_from_ubersuggest` (lines 159-160) — the CPC stub, over `Rat`
  (Python `str.split()` splits on whitespace runs and drops empties).
* `mergeStage` (lines 214-236 of `main`) — the filter / fallback / CPC /
  left-merge stage, with `pdMergeLeft` modelling
  `pd.merge(trends_df, cpc_df, on="keyword", how="left")` (all right rows
  matching a left row's key are joined to it, in order; a left row with no
  match keeps a null `cpc_usd`; left row order is preserved).
-/

/-- `{keyword, trends_score}` rows appended to `trends_data` (line 137). -/
structure TrendRecord where
  keyword : String
  trends_score : Rat
deriving DecidableEq

/-- `{keyword, cpc_usd}` rows appended to `cpc_data` (line 230). -/
structure CpcRecord where
  keyword : String
  cpc_usd : Rat
deriving DecidableEq

/-- A row of `trends_df`: in the fallback branch (line 216) the dataframe has
no `trends_score` column, hence the `Option`. -/
structure TrendRow where
  keyword : String
  trends_score : Option Rat
deriving DecidableEq

/-- A row of `final_df`: `trends_score` is absent in the fallback branch and
`cpc_usd` is `NaN`/null when the left merge finds no match. -/
structure FinalRecord where
  keyword : String
  trends_score : Option Rat
  cpc_usd : Option Rat
deriving DecidableEq

/-- A dataframe returned by `pytrends.interest_over_time()`: columns keyed by
keyword (possibly including the `isPartial` column), each with its numeric
time series.  `[]` is the empty dataframe. -/
abbrev Df := List (String × List Rat)

/-- Observable events of one `fetch_google_trends` run: the provider call of
the n-th (1-based) attempt of a batch (line 125-126), the backoff sleep
(line 151) and the inter-batch delay sleep (line 142), with the slept
seconds. -/
inductive FetchEv where
  | attempt (batch : Nat) (n : Nat) : FetchEv
  | sleepBackoff (batch : Nat) (secs : Nat) : FetchEv
  | sleepDelay (batch : Nat) (secs : Nat) : FetchEv
deriving DecidableEq

/-- The batch number an event is tagged with. -/
def FetchEv.batchIdx : FetchEv → Nat
  | .attempt b _ => b
  | .sleepBackoff b _ => b
  | .sleepDelay b _ => b

/-- `batch(iterable, n)` for a non-negative chunk size (lines 104-110): with
`n = 0`, `list(islice(it, 0))` is empty on the first round and the generator
stops without producing a batch; otherwise it yields `n`-sized chunks in
order, the last possibly shorter. -/
def batchChunks {α : Type} (l : List α) (n : Nat) : List (List α) :=
  if l.isEmpty || n == 0 then []
  else l.take n :: batchChunks (l.drop n) n
termination_by l.length
decreasing_by
  rename_i h
  simp only [Bool.or_eq_true, List.isEmpty_iff, beq_iff_eq, not_or] at h
  have hl : 0 < l.length := List.length_pos.mpr h.1
  simp only [List.length_drop]
  omega

/-- `batch(iterable, n)` over an `Int` size: `islice` raises `ValueError` for
a negative size as soon as the generator is first advanced, before any batch
is produced. -/
def batchE {α : Type} (l : List α) (n : Int) : Except String (List (List α)) :=
  if n < 0 then Except.error "ValueError: Stop argument for islice() must be None or an integer: 0 <= x <= sys.maxsize."
  else Except.ok (batchChunks l n.toNat)

/-- `data[kw].mean()`: arithmetic mean of a time series. -/
def meanSeries (s : List Rat) : Rat := s.sum / s.length

/-- `data.drop(columns=['isPartial'])` (lines 131-132). -/
def dropMetaColumn (d : Df) : Df := d.filter (fun c => c.1 ≠ "isPartial")

/-- Lines 134-139: for each keyword of the batch, in batch order, a record
with the mean of its column if the column is present, nothing otherwise. -/
def extractRecords (d : Df) (kw_batch : List String) : List TrendRecord :=
  kw_batch.filterMap (fun kw => (d.lookup kw).map (fun s => ⟨kw, meanSeries s⟩))

/-- Whether a provider call outcome lands in the `except` handler: the call
raised, or it returned the empty dataframe (`ValueError` at line 129). -/
def attemptFails (r : Option Df) : Bool :=
  match r with
  | none => true
  | some d => d.isEmpty

/-- The dataframe processed by the success path of an attempt, after the
`isPartial` column is dropped. -/
def respOf (r : Option Df) : Df := dropMetaColumn (r.getD [])

/-- The `while attempt < retries` loop of one batch (lines 121-154).
`remaining = retries - attempt` counts the loop iterations still allowed and
`attempt` is the number of attempts already made, so the call of the source
is `remaining = retries`, `attempt = 0`.  Returns the records appended by
this batch, the event trace, and whether the batch succeeded (`break` at
line 143) rather than being skipped after exhausting its retries. -/
def attemptLoop (prov : Nat → Option Df) (i : Nat) (kw_batch : List String)
    (backoff delay : Nat) : Nat → Nat → List TrendRecord × List FetchEv × Bool
  | 0, _ => ([], [], false)
  | remaining + 1, attempt =>
    if attemptFails (prov attempt) then
      -- `attempt += 1` (line 146); the failed attempt is `attempt + 1` (1-based)
      match remaining with
      | 0 => ([], [FetchEv.attempt i (attempt + 1)], false)      -- lines 152-154
      | r + 1 =>
        let res := attemptLoop prov i kw_batch backoff delay (r + 1) (attempt + 1)
        (res.1,
         FetchEv.attempt i (attempt + 1)
           :: FetchEv.sleepBackoff i (backoff * (attempt + 1)) :: res.2.1,     -- lines 149-151
         res.2.2)
    else
      (extractRecords (respOf (prov attempt)) kw_batch,
       [FetchEv.attempt i (attempt + 1), FetchEv.sleepDelay i delay],          -- lines 141-143
       true)

/-- One batch's full attempt loop, as entered at line 121 with `attempt = 0`. -/
def runBatch (prov : Nat → Option Df) (i : Nat) (kw_batch : List String)
    (retries backoff delay : Nat) : List TrendRecord × List FetchEv × Bool :=
  attemptLoop prov i kw_batch backoff delay retries 0

/-- The `for i, kw_batch in enumerate(batch(keywords, batch_size), start=1)`
loop (line 120): batches are processed strictly in order, batch number `i`
onward, and `trends_data` accumulates every batch's records. -/
def fetchLoop (prov : Nat → Nat → Option Df) (batches : List (List String))
    (i retries backoff delay : Nat) : List TrendRecord × List FetchEv :=
  match batches with
  | [] => ([], [])
  | b :: rest =>
    let r := runBatch (prov i) i b retries backoff delay
    let rs := fetchLoop prov rest (i + 1) retries backoff delay
    (r.1 ++ rs.1, r.2.1 ++ rs.2)

/-- `fetch_google_trends(keywords, geo, retries, backoff, batch_size, delay)`
(lines 113-156), for a positive `batch_size` (a zero `batch_size` makes the
`total_batches` computation at line 117 raise `ZeroDivisionError`); `geo` is
absorbed into the injected provider. -/
def fetch_google_trends (prov : Nat → Nat → Option Df) (keywords : List String)
    (retries backoff batch_size delay : Nat) : List TrendRecord × List FetchEv :=
  fetchLoop prov (batchChunks keywords batch_size) 1 retries backoff delay

/-- `len(keyword.split())`: Python `split()` with no separator splits on runs
of whitespace and drops empty fields. -/
def wordCount (kw : String) : Nat :=
  ((kw.splitOn " ").filter (fun w => w ≠ "")).length

/-- `round(x, 2)` over exact rationals. -/
def round2 (q : Rat) : Rat := (round (q * 100) : Int) / 100

/-- `get_cpc_from_ubersuggest(keyword)` (lines 159-160):
`round(0.5 + 0.1 * len(keyword.split()), 2)`. -/
def get_cpc_from_ubersuggest (keyword : String) : Rat :=
  round2 (1/2 + (1/10) * wordCount keyword)

/-- `pd.merge(trends_df, cpc_df, on="keyword", how="left")` (line 234): left
row order is preserved; each left row is joined with every right row sharing
its key, and keeps a null `cpc_usd` when no right row matches. -/
def pdMergeLeft (left : List TrendRow) (right : List CpcRecord) : List FinalRecord :=
  left.flatMap (fun t =>
    match right.filter (fun c => c.keyword == t.keyword) with
    | [] => [⟨t.keyword, t.trends_score, none⟩]
    | ms => ms.map (fun c => ⟨t.keyword, t.trends_score, some c.cpc_usd⟩))

/-- The merge stage of `main` (lines 214-236), abstracted over the fetch
output `trends_data`, the pre-fetch keyword list `expanded_keywords` and
`min_trends_score`:
* `trends_data` empty → `trends_df` is one score-less row per keyword of
  `expanded_keywords` (line 216);
* otherwise `trends_df` is the fetched records with `trends_score ≥ min_score`
  (line 220);
* `trends_df` empty → CPC scraping is skipped and `final_df = trends_df`,
  which is empty (lines 222-224, 236);
* otherwise one CPC row per `trends_df` row is built with the stub
  (lines 228-231) and `final_df` is the left merge (line 234). -/
def mergeStage (trends_data : List TrendRecord) (expanded_keywords : List String)
    (min_score : Rat) : List FinalRecord :=
  let trends_df : List TrendRow :=
    if trends_data.isEmpty then
      expanded_keywords.map (fun kw => ⟨kw, none⟩)
    else
      (trends_data.filter (fun r => decide (min_score ≤ r.trends_score))).map
        (fun r => ⟨r.keyword, some r.trends_score⟩)
  if trends_df.isEmpty then
    []
  else
    let cpc_df : List CpcRecord :=
      trends_df.map (fun t => ⟨t.keyword, get_cpc_from_ubersuggest t.keyword⟩)
    pdMergeLeft trends_df cpc_df

/-! ### Equations and structural facts for `batchChunks` -/

theorem batchChunks_nil {α : Type} (n : Nat) : batchChunks ([] : List α) n = [] := by
  rw [batchChunks]; rfl

theorem batchChunks_zero {α : Type} (l : List α) : batchChunks l 0 = [] := by
  rw [batchChunks]; simp

theorem batchChunks_cons {α : Type} (a : α) (t : List α) (n : Nat) :
    batchChunks (a :: t) (n + 1) = (a :: t.take n) :: batchChunks (t.drop n) (n + 1) := by
  rw [batchChunks]; simp

theorem batchChunks_unfold_pos {α : Type} (l : List α) (n : Nat)
    (h : ¬(l.isEmpty || n == 0) = true) :
    batchChunks l n = l.take n :: batchChunks (l.drop n) n := by
  rw [batchChunks, if_neg h]

theorem batchChunks_flatten {α : Type} (l : List α) (n : Nat) (h : 1 ≤ n) :
    (batchChunks l n).flatten = l := by
  induction l, n using batchChunks.induct with
  | case1 l n hc =>
    simp only [Bool.or_eq_true, List.isEmpty_iff, beq_iff_eq] at hc
    rcases hc with hc | hc
    · simp [hc, batchChunks_nil]
    · omega
  | case2 l n hc ih =>
    rw [batchChunks]
    simp only [hc, if_false]
    simp [ih h]

theorem batchChunks_length {α : Type} (l : List α) (n : Nat) (h : 1 ≤ n) :
    (batchChunks l n).length = (l.length + n - 1) / n := by
  induction l, n using batchChunks.induct with
  | case1 l n hc =>
    simp only [Bool.or_eq_true, List.isEmpty_iff, beq_iff_eq] at hc
    rcases hc with hc | hc
    · subst hc
      rw [batchChunks_nil]
      simp only [List.length_nil, List.length, Nat.zero_add]
      rw [Nat.div_eq_of_lt (by omega)]
    · omega
  | case2 l n hc ih =>
    rw [batchChunks_unfold_pos l n hc]
    simp only [List.length_cons]
    have hne : l ≠ [] := by
      intro he
      simp [he] at hc
    have hlpos : 0 < l.length := List.length_pos.mpr hne
    by_cases hle : l.length ≤ n
    · have hdrop : l.drop n = [] := List.drop_eq_nil_of_le hle
      rw [hdrop, batchChunks_nil]
      have : (l.length + n - 1) / n = 1 := by
        apply Nat.div_eq_of_lt_le <;> omega
      simp [this]
    · have harg : l.length - n + n - 1 = l.length - 1 := by omega
      have hsplit : l.length + n - 1 = (l.length - 1) + n := by omega
      rw [ih h, List.length_drop, harg, hsplit, Nat.add_div_right _ (by omega : 0 < n)]

theorem batchChunks_mem_length {α : Type} (l : List α) (n : Nat) (h : 1 ≤ n) :
    ∀ b ∈ batchChunks l n, 1 ≤ b.length ∧ b.length ≤ n := by
  induction l, n using batchChunks.induct with
  | case1 l n hc =>
    simp only [Bool.or_eq_true, List.isEmpty_iff, beq_iff_eq] at hc
    rcases hc with hc | hc
    · simp [hc, batchChunks_nil]
    · omega
  | case2 l n hc ih =>
    rw [batchChunks_unfold_pos l n hc]
    intro b hb
    have hne : l ≠ [] := by
      intro he
      simp [he] at hc
    have hlpos : 0 < l.length := List.length_pos.mpr hne
    rcases List.mem_cons.mp hb with rfl | hb
    · constructor
      · simp only [List.length_take]
        omega
      · simp [List.length_take]
    · exact ih h b hb

theorem batchChunks_eq_nil_iff {α : Type} (l : List α) (n : Nat) :
    batchChunks l n = [] ↔ (l = [] ∨ n = 0) := by
  constructor
  · intro he
    by_contra hcon
    push_neg at hcon
    rw [batchChunks] at he
    have : ¬(l.isEmpty || n == 0) = true := by
      simp [List.isEmpty_iff, hcon.1, hcon.2]
    simp only [this, if_false] at he
    exact absurd he (by simp)
  · intro hor
    rcases hor with rfl | rfl
    · exact batchChunks_nil n
    · exact batchChunks_zero l

theorem batchChunks_dropLast_length {α : Type} (l : List α) (n : Nat) (h : 1 ≤ n) :
    ∀ b ∈ (batchChunks l n).dropLast, b.length = n := by
  induction l, n using batchChunks.induct with
  | case1 l n hc =>
    simp only [Bool.or_eq_true, List.isEmpty_iff, beq_iff_eq] at hc
    rcases hc with hc | hc
    · simp [hc, batchChunks_nil]
    · omega
  | case2 l n hc ih =>
    rw [batchChunks_unfold_pos l n hc]
    intro b hb
    by_cases hrest : batchChunks (l.drop n) n = []
    · rw [hrest] at hb
      simp at hb
    · rw [List.dropLast_cons_of_ne_nil hrest] at hb
      rcases List.mem_cons.mp hb with rfl | hb
      · have hgt : n < l.length := by
          rcases (not_iff_not.mpr (batchChunks_eq_nil_iff (l.drop n) n)).mp hrest
            |> not_or.mp with ⟨hd, _⟩
          have : l.length - n ≠ 0 := by
            intro hz
            exact hd (List.drop_eq_nil_of_le (by omega))
          omega
        simp only [List.length_take]
        omega
      · exact ih h b hb

/-! ### Helper lemmas for the merge stage -/

theorem flatMap_eq_map_of {α β : Type} (l : List α) (f : α → List β) (g : α → β)
    (h : ∀ a ∈ l, f a = [g a]) : l.flatMap f = l.map g := by
  induction l with
  | nil => rfl
  | cons a t ih =>
    rw [List.flatMap_cons, h a (by simp), List.map_cons,
      ih (fun x hx => h x (List.mem_cons_of_mem a hx))]
    rfl

theorem filter_key_eq_of_nodup {α : Type} (key : α → String) (l : List α)
    (hnd : (l.map key).Nodup) (t : α) (ht : t ∈ l) :
    l.filter (fun x => key x == key t) = [t] := by
  induction l with
  | nil => cases ht
  | cons a rest ih =>
    rw [List.map_cons, List.nodup_cons] at hnd
    rcases List.mem_cons.mp ht with rfl | ht
    · rw [List.filter_cons_of_pos (by simp)]
      have : rest.filter (fun x => key x == key t) = [] := by
        rw [List.filter_eq_nil_iff]
        intro x hx hkey
        exact hnd.1 (List.mem_map.mpr ⟨x, hx, (beq_iff_eq.mp hkey).symm ▸ rfl⟩)
      rw [this]
    · have hne : ¬(key a == key t) = true := by
        simp only [beq_iff_eq]
        intro he
        exact hnd.1 (he ▸ List.mem_map.mpr ⟨t, ht, rfl⟩)
      have hstep : List.filter (fun x => key x == key t) (a :: rest)
          = List.filter (fun x => key x == key t) rest := by
        simp [List.filter_cons, hne]
      rw [hstep]
      exact ih hnd.2 ht

theorem filter_key_length_le_one {α : Type} (key : α → String) (l : List α)
    (hnd : (l.map key).Nodup) (k : String) :
    (l.filter (fun x => key x == k)).length ≤ 1 := by
  induction l with
  | nil => simp
  | cons a rest ih =>
    rw [List.map_cons, List.nodup_cons] at hnd
    by_cases ha : (key a == k) = true
    · have hstep : List.filter (fun x => key x == k) (a :: rest)
          = a :: List.filter (fun x => key x == k) rest := by
        simp [List.filter_cons, ha]
      rw [hstep]
      have hnil : rest.filter (fun x => key x == k) = [] := by
        rw [List.filter_eq_nil_iff]
        intro x hx hkey
        refine absurd ?_ hnd.1
        have hxk : key x = k := beq_iff_eq.mp hkey
        have hak : key a = k := beq_iff_eq.mp ha
        rw [hak, ← hxk]
        exact List.mem_map.mpr ⟨x, hx, rfl⟩
      rw [hnil]
      simp
    · have hstep : List.filter (fun x => key x == k) (a :: rest)
          = List.filter (fun x => key x == k) rest := by
        simp [List.filter_cons, ha]
      rw [hstep]
      exact ih hnd.2

theorem pdMergeLeft_map_keyword (rows : List TrendRow) (cpc : List CpcRecord)
    (hnd : (cpc.map CpcRecord.keyword).Nodup) :
    (pdMergeLeft rows cpc).map FinalRecord.keyword = rows.map TrendRow.keyword := by
  induction rows with
  | nil => rfl
  | cons t rest ih =>
    rw [pdMergeLeft, List.flatMap_cons, List.map_append]
    rw [pdMergeLeft] at ih
    rw [ih, List.map_cons]
    cases hms : cpc.filter (fun c => c.keyword == t.keyword) with
    | nil => rfl
    | cons c cs =>
      have hlen := filter_key_length_le_one CpcRecord.keyword cpc hnd t.keyword
      rw [hms] at hlen
      have hcs : cs = [] := by
        cases cs with
        | nil => rfl
        | cons _ _ => simp at hlen
      subst hcs
      rfl

theorem pdMergeLeft_total (rows : List TrendRow)
    (hnd : (rows.map TrendRow.keyword).Nodup) :
    pdMergeLeft rows
        (rows.map (fun t => (⟨t.keyword, get_cpc_from_ubersuggest t.keyword⟩ : CpcRecord)))
      = rows.map (fun t =>
          (⟨t.keyword, t.trends_score, some (get_cpc_from_ubersuggest t.keyword)⟩ : FinalRecord)) := by
  rw [pdMergeLeft]
  apply flatMap_eq_map_of
  intro t ht
  have hfil :
      (rows.map (fun t => (⟨t.keyword, get_cpc_from_ubersuggest t.keyword⟩ : CpcRecord))).filter
          (fun c => c.keyword == t.keyword)
        = (rows.filter (fun x => x.keyword == t.keyword)).map
            (fun t => (⟨t.keyword, get_cpc_from_ubersuggest t.keyword⟩ : CpcRecord)) := by
    rw [List.filter_map]
    rfl
  rw [hfil, filter_key_eq_of_nodup TrendRow.keyword rows hnd t ht]
  rfl

/-! ### Claims about the Batcher (C3, C4) -/

/-- C4: for every keyword list and every size ≥ 1, the split yields exactly
`⌈len/size⌉` batches (in `Nat` arithmetic, `(len + size - 1) / size`), their
concatenation is the input list exactly and in order, every batch except
possibly the last has length `size`, every batch's length lies in
`[1, size]`, and the empty input yields zero batches without error. -/
theorem C4_batch_split_correct {α : Type} (l : List α) (n : Nat) (h : 1 ≤ n) :
    (batchChunks l n).flatten = l
    ∧ (batchChunks l n).length = (l.length + n - 1) / n
    ∧ (∀ b ∈ (batchChunks l n).dropLast, b.length = n)
    ∧ (∀ b ∈ batchChunks l n, 1 ≤ b.length ∧ b.length ≤ n)
    ∧ batchChunks ([] : List α) n = [] :=
  ⟨batchChunks_flatten l n h, batchChunks_length l n h,
   batchChunks_dropLast_length l n h, batchChunks_mem_length l n h,
   batchChunks_nil n⟩

theorem C4_batch_split_correct_witness :
    1 ≤ 2 ∧ (batchChunks ["p","q","r","s","t"] 2).flatten = ["p","q","r","s","t"] :=
  ⟨by decide, (C4_batch_split_correct ["p","q","r","s","t"] 2 (by decide)).1⟩

/-- C3 counterexample: `batch(["x"], 0)` is not a configuration error — the
generator stops at once and produces zero batches, succeeding silently. -/
theorem C3_counterexample : batchE ["x"] (0 : Int) = Except.ok [] := by
  rw [batchE, if_neg (by decide)]
  rw [show ((0 : Int).toNat = 0) from rfl, batchChunks_zero]

/-- C3 (amended): a negative size raises `ValueError` before any batch is
produced, but a size of 0 is not an error: for every input (non-empty
included) it silently yields zero batches, discarding all keywords. -/
theorem C3_split_size_amended {α : Type} (l : List α) (n : Int) :
    (n < 0 → batchE l n = Except.error "ValueError: Stop argument for islice() must be None or an integer: 0 <= x <= sys.maxsize.")
    ∧ batchE l (0 : Int) = Except.ok [] := by
  constructor
  · intro hn
    rw [batchE, if_pos hn]
  · rw [batchE, if_neg (by decide)]
    rw [show ((0 : Int).toNat = 0) from rfl, batchChunks_zero]

theorem C3_split_size_amended_witness :
    batchE ["a"] (-1 : Int) = Except.error "ValueError: Stop argument for islice() must be None or an integer: 0 <= x <= sys.maxsize."
    ∧ batchE ["a","b"] (0 : Int) = Except.ok [] :=
  ⟨(C3_split_size_amended ["a"] (-1)).1 (by decide), (C3_split_size_amended ["a","b"] 0).2⟩

/-! ### Claims about the ResultMerger stage (C1, C9) -/

/-- C1 counterexample: a run whose fetch produced one record (`"a"` with
score 10) that the min-score filter (50) discards entirely yields an *empty*
final record set — not one FinalRecord per keyword of the original input
list `["x","y"]` with null score and null cost, as the claim states. -/
theorem C1_counterexample :
    mergeStage [⟨"a", (10 : Rat)⟩] ["x", "y"] 50 = []
    ∧ mergeStage [⟨"a", (10 : Rat)⟩] ["x", "y"] 50
        ≠ [⟨"x", none, none⟩, ⟨"y", none, none⟩] := by
  constructor <;> decide

/-- C1 (amended): the fallback to the original keyword list happens only when
the fetch stage produced *no* records at all; then the merge stage returns
one FinalRecord per original keyword with `trends_score` unset but `cpc_usd`
*set* by the CPC stub (not null).  When the fetch produced records and the
min-score filter discarded them all, the merge stage returns no records. -/
theorem C1_fallback_amended (trends_data : List TrendRecord)
    (expanded : List String) (m : Rat) :
    (trends_data = [] → expanded.Nodup →
      mergeStage trends_data expanded m
        = expanded.map (fun kw => ⟨kw, none, some (get_cpc_from_ubersuggest kw)⟩))
    ∧ (trends_data ≠ [] →
        trends_data.filter (fun r => decide (m ≤ r.trends_score)) = [] →
        mergeStage trends_data expanded m = []) := by
  constructor
  · intro h1 h2
    subst h1
    rw [mergeStage]
    simp only [List.isEmpty_nil, if_true]
    cases expanded with
    | nil => rfl
    | cons e es =>
      have hcond : (((e :: es).map (fun kw => (⟨kw, none⟩ : TrendRow))).isEmpty) = false := by
        simp
      simp only [hcond, Bool.false_eq_true, if_false]
      have hkeys : ((e :: es).map (fun kw => (⟨kw, none⟩ : TrendRow))).map TrendRow.keyword
          = e :: es := by
        rw [List.map_map]
        exact List.map_id'' (fun _ => rfl) (e :: es)
      rw [pdMergeLeft_total _ (by rw [hkeys]; exact h2), List.map_map]
      rfl
  · intro hne hfil
    rw [mergeStage]
    have hcond : trends_data.isEmpty = false := by
      simp [List.isEmpty_iff, hne]
    simp only [hcond, Bool.false_eq_true, if_false, hfil, List.map_nil,
      List.isEmpty_nil, if_true]

theorem C1_fallback_amended_witness :
    mergeStage [] ["x", "y z"] 0
      = [⟨"x", none, some (get_cpc_from_ubersuggest "x")⟩,
         ⟨"y z", none, some (get_cpc_from_ubersuggest "y z")⟩] := by
  rw [(C1_fallback_amended [] ["x", "y z"] 0).1 rfl (by decide)]
  rfl

/-- C9: the left merge introduces no keywords and keeps every surviving row.
Part 1 (the merge itself, `pd.merge(..., how="left")`): whenever the CPC
side has no duplicate keywords, the merged record list carries exactly the
left side's keyword list — one FinalRecord per left row, whether or not a
CPC row matches it.  Part 2 (the pipeline's non-fallback path): when the
fetch produced records with distinct keywords, the final record set's
keyword list equals (hence its keyword set is a subset of, never a superset
of) the filtered TrendRecord keyword list. -/
theorem C9_left_join_invariant :
    (∀ (rows : List TrendRow) (cpc : List CpcRecord),
        (cpc.map CpcRecord.keyword).Nodup →
        (pdMergeLeft rows cpc).map FinalRecord.keyword = rows.map TrendRow.keyword)
    ∧ (∀ (trends_data : List TrendRecord) (expanded : List String) (m : Rat),
        trends_data ≠ [] →
        (trends_data.map TrendRecord.keyword).Nodup →
        (mergeStage trends_data expanded m).map FinalRecord.keyword
            = (trends_data.filter (fun r => decide (m ≤ r.trends_score))).map
                TrendRecord.keyword
          ∧ ∀ fr ∈ mergeStage trends_data expanded m,
              fr.keyword ∈ (trends_data.filter
                (fun r => decide (m ≤ r.trends_score))).map TrendRecord.keyword) := by
  constructor
  · exact fun rows cpc hnd => pdMergeLeft_map_keyword rows cpc hnd
  · intro trends_data expanded m hne hnd
    have hcond : trends_data.isEmpty = false := by
      simp [List.isEmpty_iff, hne]
    have hmain : (mergeStage trends_data expanded m).map FinalRecord.keyword
        = (trends_data.filter (fun r => decide (m ≤ r.trends_score))).map
            TrendRecord.keyword := by
      rw [mergeStage]
      simp only [hcond, Bool.false_eq_true, if_false]
      cases hfil : trends_data.filter (fun r => decide (m ≤ r.trends_score)) with
      | nil => simp
      | cons f fs =>
        have hdfne : (((f :: fs).map
            (fun r => (⟨r.keyword, some r.trends_score⟩ : TrendRow))).isEmpty) = false := by
          simp
        simp only [hdfne, Bool.false_eq_true, if_false]
        have hkeys : ((f :: fs).map
              (fun r => (⟨r.keyword, some r.trends_score⟩ : TrendRow))).map TrendRow.keyword
            = (f :: fs).map TrendRecord.keyword := by
          rw [List.map_map]
          rfl
        have hsub : ((f :: fs).map TrendRecord.keyword).Sublist
            (trends_data.map TrendRecord.keyword) := by
          rw [← hfil]
          exact (List.filter_sublist trends_data).map TrendRecord.keyword
        have hcpckeys :
            (((f :: fs).map (fun r => (⟨r.keyword, some r.trends_score⟩ : TrendRow))).map
                (fun t => (⟨t.keyword, get_cpc_from_ubersuggest t.keyword⟩ : CpcRecord))).map
              CpcRecord.keyword
            = (f :: fs).map TrendRecord.keyword := by
          rw [List.map_map, List.map_map]
          rfl
        rw [pdMergeLeft_map_keyword _ _ (by rw [hcpckeys]; exact hnd.sublist hsub), hkeys]
    refine ⟨hmain, ?_⟩
    intro fr hfr
    rw [← hmain]
    exact List.mem_map.mpr ⟨fr, hfr, rfl⟩

theorem C9_left_join_invariant_witness :
    (pdMergeLeft [⟨"solo", some 4⟩] []).map FinalRecord.keyword = ["solo"]
    ∧ (mergeStage [⟨"a", (70 : Rat)⟩, ⟨"b", (30 : Rat)⟩] [] 50).map FinalRecord.keyword
        = ["a"] := by
  constructor
  · exact C9_left_join_invariant.1 [⟨"solo", some 4⟩] [] (by decide)
  · rw [(C9_left_join_invariant.2 [⟨"a", (70 : Rat)⟩, ⟨"b", (30 : Rat)⟩] [] 50
      (by decide) (by decide)).1]
    decide

/-! ### Unfolding equations for the attempt loop -/

theorem attemptLoop_zero (prov : Nat → Option Df) (i : Nat) (kw : List String)
    (backoff delay attempt : Nat) :
    attemptLoop prov i kw backoff delay 0 attempt = ([], [], false) := rfl

theorem attemptLoop_succ (prov : Nat → Option Df) (i : Nat) (kw : List String)
    (backoff delay remaining attempt : Nat) :
    attemptLoop prov i kw backoff delay (remaining + 1) attempt
      = if attemptFails (prov attempt) then
          match remaining with
          | 0 => ([], [FetchEv.attempt i (attempt + 1)], false)
          | r + 1 =>
            ((attemptLoop prov i kw backoff delay (r + 1) (attempt + 1)).1,
             FetchEv.attempt i (attempt + 1)
               :: FetchEv.sleepBackoff i (backoff * (attempt + 1))
               :: (attemptLoop prov i kw backoff delay (r + 1) (attempt + 1)).2.1,
             (attemptLoop prov i kw backoff delay (r + 1) (attempt + 1)).2.2)
        else
          (extractRecords (respOf (prov attempt)) kw,
           [FetchEv.attempt i (attempt + 1), FetchEv.sleepDelay i delay], true) := by
  rw [attemptLoop.eq_def]

theorem attemptLoop_fail_last (prov : Nat → Option Df) (i : Nat) (kw : List String)
    (backoff delay attempt : Nat) (h : attemptFails (prov attempt) = true) :
    attemptLoop prov i kw backoff delay (0 + 1) attempt
      = ([], [FetchEv.attempt i (attempt + 1)], false) := by
  rw [attemptLoop_succ, if_pos h]

theorem attemptLoop_fail_step (prov : Nat → Option Df) (i : Nat) (kw : List String)
    (backoff delay attempt r : Nat) (h : attemptFails (prov attempt) = true) :
    attemptLoop prov i kw backoff delay ((r + 1) + 1) attempt
      = ((attemptLoop prov i kw backoff delay (r + 1) (attempt + 1)).1,
         FetchEv.attempt i (attempt + 1)
           :: FetchEv.sleepBackoff i (backoff * (attempt + 1))
           :: (attemptLoop prov i kw backoff delay (r + 1) (attempt + 1)).2.1,
         (attemptLoop prov i kw backoff delay (r + 1) (attempt + 1)).2.2) := by
  rw [attemptLoop_succ, if_pos h]

theorem attemptLoop_success (prov : Nat → Option Df) (i : Nat) (kw : List String)
    (backoff delay attempt rem : Nat) (h : attemptFails (prov attempt) = false) :
    attemptLoop prov i kw backoff delay (rem + 1) attempt
      = (extractRecords (respOf (prov attempt)) kw,
         [FetchEv.attempt i (attempt + 1), FetchEv.sleepDelay i delay], true) := by
  rw [attemptLoop_succ, if_neg (by rw [h]; exact Bool.false_ne_true)]

/-! ### Trace and record lemmas for the attempt loop -/

theorem attemptLoop_events_batchIdx (prov : Nat → Option Df) (i : Nat)
    (kw : List String) (backoff delay : Nat) :
    ∀ remaining attempt, ∀ ev ∈ (attemptLoop prov i kw backoff delay remaining attempt).2.1,
      ev.batchIdx = i := by
  intro remaining
  induction remaining with
  | zero =>
    intro attempt ev hev
    rw [attemptLoop_zero] at hev
    cases hev
  | succ rem ih =>
    intro attempt ev hev
    cases hf : attemptFails (prov attempt) with
    | false =>
      rw [attemptLoop_success prov i kw backoff delay attempt rem hf] at hev
      rcases List.mem_cons.mp hev with rfl | hev
      · rfl
      · rcases List.mem_cons.mp hev with rfl | hev
        · rfl
        · cases hev
    | true =>
      cases rem with
      | zero =>
        rw [attemptLoop_fail_last prov i kw backoff delay attempt hf] at hev
        rcases List.mem_cons.mp hev with rfl | hev
        · rfl
        · cases hev
      | succ r =>
        rw [attemptLoop_fail_step prov i kw backoff delay attempt r hf] at hev
        rcases List.mem_cons.mp hev with rfl | hev
        · rfl
        · rcases List.mem_cons.mp hev with rfl | hev
          · rfl
          · exact ih (attempt + 1) ev hev

theorem attemptLoop_delay_iff (prov : Nat → Option Df) (i : Nat) (kw : List String)
    (backoff delay : Nat) :
    ∀ remaining attempt,
      (FetchEv.sleepDelay i delay ∈ (attemptLoop prov i kw backoff delay remaining attempt).2.1
        ↔ (attemptLoop prov i kw backoff delay remaining attempt).2.2 = true) := by
  intro remaining
  induction remaining with
  | zero =>
    intro attempt
    rw [attemptLoop_zero]
    simp
  | succ rem ih =>
    intro attempt
    cases hf : attemptFails (prov attempt) with
    | false =>
      rw [attemptLoop_success prov i kw backoff delay attempt rem hf]
      simp
    | true =>
      cases rem with
      | zero =>
        rw [attemptLoop_fail_last prov i kw backoff delay attempt hf]
        simp
      | succ r =>
        rw [attemptLoop_fail_step prov i kw backoff delay attempt r hf]
        simp only [List.mem_cons, reduceCtorEq, false_or]
        exact ih (attempt + 1)

theorem attemptLoop_records_keyword (prov : Nat → Option Df) (i : Nat)
    (kw : List String) (backoff delay : Nat) :
    ∀ remaining attempt, ∀ r ∈ (attemptLoop prov i kw backoff delay remaining attempt).1,
      r.keyword ∈ kw := by
  intro remaining
  induction remaining with
  | zero =>
    intro attempt r hr
    rw [attemptLoop_zero] at hr
    cases hr
  | succ rem ih =>
    intro attempt r hr
    cases hf : attemptFails (prov attempt) with
    | false =>
      rw [attemptLoop_success prov i kw backoff delay attempt rem hf] at hr
      obtain ⟨kw', hkw', hmap⟩ := List.mem_filterMap.mp hr
      obtain ⟨s, _, hrec⟩ := Option.map_eq_some'.mp hmap
      subst hrec
      exact hkw'
    | true =>
      cases rem with
      | zero =>
        rw [attemptLoop_fail_last prov i kw backoff delay attempt hf] at hr
        cases hr
      | succ r' =>
        rw [attemptLoop_fail_step prov i kw backoff delay attempt r' hf] at hr
        exact ih (attempt + 1) r hr

theorem attemptLoop_skip_fails (prov : Nat → Option Df) (i : Nat) (kw : List String)
    (backoff delay : Nat) :
    ∀ k remaining attempt,
      (∀ n, attempt ≤ n → n < attempt + k → attemptFails (prov n) = true) →
      k < remaining →
      (attemptLoop prov i kw backoff delay remaining attempt).1
          = (attemptLoop prov i kw backoff delay (remaining - k) (attempt + k)).1
        ∧ (attemptLoop prov i kw backoff delay remaining attempt).2.2
          = (attemptLoop prov i kw backoff delay (remaining - k) (attempt + k)).2.2 := by
  intro k
  induction k with
  | zero =>
    intro remaining attempt _ _
    simp
  | succ k ih =>
    intro remaining attempt hfail hlt
    have hf0 : attemptFails (prov attempt) = true :=
      hfail attempt (Nat.le_refl _) (by omega)
    obtain ⟨rem, rfl⟩ : ∃ rem, remaining = (rem + 1) + 1 := ⟨remaining - 2, by omega⟩
    rw [attemptLoop_fail_step prov i kw backoff delay attempt rem hf0]
    have hrec := ih (rem + 1) (attempt + 1)
      (fun n hn1 hn2 => hfail n (by omega) (by omega)) (by omega)
    have harith1 : rem + 1 - k = rem + 2 - (k + 1) := by omega
    have harith2 : attempt + 1 + k = attempt + (k + 1) := by omega
    rw [harith1, harith2] at hrec
    exact hrec

theorem attemptLoop_all_fail (prov : Nat → Option Df) (i : Nat) (kw : List String)
    (backoff delay : Nat) :
    ∀ remaining attempt,
      (∀ n, attempt ≤ n → n < attempt + remaining → attemptFails (prov n) = true) →
      (attemptLoop prov i kw backoff delay remaining attempt).1 = []
        ∧ (attemptLoop prov i kw backoff delay remaining attempt).2.2 = false := by
  intro remaining
  induction remaining with
  | zero =>
    intro attempt _
    rw [attemptLoop_zero]
    exact ⟨rfl, rfl⟩
  | succ rem ih =>
    intro attempt hfail
    have hf0 : attemptFails (prov attempt) = true :=
      hfail attempt (Nat.le_refl _) (by omega)
    cases rem with
    | zero =>
      rw [attemptLoop_fail_last prov i kw backoff delay attempt hf0]
      exact ⟨rfl, rfl⟩
    | succ r =>
      rw [attemptLoop_fail_step prov i kw backoff delay attempt r hf0]
      exact ih (attempt + 1) (fun n hn1 hn2 => hfail n (by omega) (by omega))

/-! ### Record extraction and per-batch success -/

theorem extractRecords_map_keyword (d : Df) (l : List String) :
    (extractRecords d l).map TrendRecord.keyword
      = l.filter (fun kw => (d.lookup kw).isSome) := by
  induction l with
  | nil => rfl
  | cons kw t ih =>
    simp only [extractRecords] at ih ⊢
    rw [List.filterMap_cons]
    cases h : d.lookup kw with
    | none => simp [h, ih, List.filter_cons]
    | some s => simp [h, ih, List.filter_cons]

/-- The C5 success scenario for one batch: some attempt `a` is reached (all
earlier attempts land in the `except` handler), its provider call does not
fail, and its response has a column for every keyword of the batch. -/
def completeSuccess (prov : Nat → Option Df) (b : List String) (retries : Nat) : Prop :=
  ∃ a, a < retries ∧ (∀ n, n < a → attemptFails (prov n) = true)
    ∧ attemptFails (prov a) = false
    ∧ ∀ kw ∈ b, ((respOf (prov a)).lookup kw).isSome = true

theorem runBatch_complete (prov : Nat → Option Df) (i : Nat) (b : List String)
    (retries backoff delay : Nat) (hc : completeSuccess prov b retries) :
    ((runBatch prov i b retries backoff delay).1).map TrendRecord.keyword = b
    ∧ (runBatch prov i b retries backoff delay).2.2 = true := by
  obtain ⟨a, ha, hfail, hsucc, hcols⟩ := hc
  have hskip := attemptLoop_skip_fails prov i b backoff delay a retries 0
    (fun n _ hn2 => hfail n (by omega)) ha
  simp only [Nat.zero_add] at hskip
  obtain ⟨s, hs⟩ : ∃ s, retries - a = s + 1 := ⟨retries - a - 1, by omega⟩
  rw [hs] at hskip
  rw [runBatch, hskip.1, hskip.2, attemptLoop_success prov i b backoff delay a s hsucc]
  refine ⟨?_, rfl⟩
  rw [extractRecords_map_keyword]
  exact List.filter_eq_self.mpr hcols

theorem runBatch_all_fail (prov : Nat → Option Df) (i : Nat) (b : List String)
    (retries backoff delay : Nat)
    (hfail : ∀ n, n < retries → attemptFails (prov n) = true) :
    (runBatch prov i b retries backoff delay).1 = []
    ∧ (runBatch prov i b retries backoff delay).2.2 = false := by
  rw [runBatch]
  exact attemptLoop_all_fail prov i b backoff delay retries 0
    (fun n _ hn2 => hfail n (by omega))

/-! ### The batch-sequencing loop -/

theorem fetchLoop_nil (prov : Nat → Nat → Option Df) (i retries backoff delay : Nat) :
    fetchLoop prov [] i retries backoff delay = ([], []) := rfl

theorem fetchLoop_cons (prov : Nat → Nat → Option Df) (b : List String)
    (rest : List (List String)) (i retries backoff delay : Nat) :
    fetchLoop prov (b :: rest) i retries backoff delay
      = ((runBatch (prov i) i b retries backoff delay).1
           ++ (fetchLoop prov rest (i + 1) retries backoff delay).1,
         (runBatch (prov i) i b retries backoff delay).2.1
           ++ (fetchLoop prov rest (i + 1) retries backoff delay).2) := rfl

theorem fetchLoop_events_idx_ge (prov : Nat → Nat → Option Df)
    (retries backoff delay : Nat) :
    ∀ (bs : List (List String)) (i : Nat),
      ∀ ev ∈ (fetchLoop prov bs i retries backoff delay).2, i ≤ ev.batchIdx := by
  intro bs
  induction bs with
  | nil =>
    intro i ev hev
    rw [fetchLoop_nil] at hev
    cases hev
  | cons b rest ih =>
    intro i ev hev
    rw [fetchLoop_cons] at hev
    rcases List.mem_append.mp hev with hev | hev
    · rw [attemptLoop_events_batchIdx (prov i) i b backoff delay retries 0 ev hev]
    · exact Nat.le_of_succ_le (ih (i + 1) ev hev)

theorem fetchLoop_delay_iff (prov : Nat → Nat → Option Df)
    (retries backoff delay : Nat) :
    ∀ (bs : List (List String)) (i j : Nat) (b : List String), bs.get? j = some b →
      (FetchEv.sleepDelay (i + j) delay ∈ (fetchLoop prov bs i retries backoff delay).2
        ↔ (runBatch (prov (i + j)) (i + j) b retries backoff delay).2.2 = true) := by
  intro bs
  induction bs with
  | nil =>
    intro i j b hj
    rw [List.get?_nil] at hj
    cases hj
  | cons hd tl ih =>
    intro i j b hj
    rw [fetchLoop_cons]
    cases j with
    | zero =>
      rw [List.get?_cons_zero] at hj
      obtain rfl := Option.some.inj hj
      simp only [Nat.add_zero]
      constructor
      · intro hmem
        rcases List.mem_append.mp hmem with hmem | hmem
        · exact (attemptLoop_delay_iff (prov i) i hd backoff delay retries 0).mp hmem
        · exfalso
          have hge := fetchLoop_events_idx_ge prov retries backoff delay tl (i + 1) _ hmem
          have hidx : (FetchEv.sleepDelay i delay).batchIdx = i := rfl
          omega
      · intro hsucc
        exact List.mem_append.mpr
          (Or.inl ((attemptLoop_delay_iff (prov i) i hd backoff delay retries 0).mpr hsucc))
    | succ j' =>
      have hj' : tl.get? j' = some b := hj
      have harith : i + (j' + 1) = (i + 1) + j' := by omega
      rw [harith]
      constructor
      · intro hmem
        rcases List.mem_append.mp hmem with hmem | hmem
        · exfalso
          have hbi := attemptLoop_events_batchIdx (prov i) i hd backoff delay retries 0 _ hmem
          have hidx : (FetchEv.sleepDelay ((i + 1) + j') delay).batchIdx = (i + 1) + j' := rfl
          rw [hidx] at hbi
          omega
        · exact (ih (i + 1) j' b hj').mp hmem
      · intro hsucc
        exact List.mem_append.mpr (Or.inr ((ih (i + 1) j' b hj').mpr hsucc))

theorem flatMap_congr_mem {α β : Type} (l : List α) (f g : α → List β)
    (h : ∀ a ∈ l, f a = g a) : l.flatMap f = l.flatMap g := by
  induction l with
  | nil => rfl
  | cons a t ih =>
    rw [List.flatMap_cons, List.flatMap_cons, h a (by simp),
      ih (fun x hx => h x (List.mem_cons_of_mem a hx))]

theorem fetchLoop_records_flatMap (prov : Nat → Nat → Option Df)
    (retries backoff delay : Nat) :
    ∀ (bs : List (List String)) (i : Nat),
      (fetchLoop prov bs i retries backoff delay).1
        = (List.enumFrom i bs).flatMap
            (fun p => (runBatch (prov p.1) p.1 p.2 retries backoff delay).1) := by
  intro bs
  induction bs with
  | nil =>
    intro i
    rw [fetchLoop_nil, List.enumFrom_nil]
    rfl
  | cons hd tl ih =>
    intro i
    rw [fetchLoop_cons, List.enumFrom_cons, List.flatMap_cons, ih (i + 1)]

theorem flatten_nodup_get_unique (kw : String) :
    ∀ (bs : List (List String)) (j p : Nat) (b c : List String),
      (bs.flatten).Nodup → bs.get? j = some b → bs.get? p = some c →
      kw ∈ b → kw ∈ c → j = p := by
  intro bs
  induction bs with
  | nil =>
    intro j p b c _ hj
    rw [List.get?_nil] at hj
    cases hj
  | cons hd tl ih =>
    intro j p b c hnd hj hp hkb hkc
    rw [List.flatten_cons, List.nodup_append] at hnd
    cases j with
    | zero =>
      rw [List.get?_cons_zero] at hj
      obtain rfl := Option.some.inj hj
      cases p with
      | zero => rfl
      | succ p' =>
        exfalso
        have hc : c ∈ tl := List.get?_mem hp
        exact hnd.2.2 hkb (List.mem_flatten.mpr ⟨c, hc, hkc⟩)
    | succ j' =>
      cases p with
      | zero =>
        exfalso
        rw [List.get?_cons_zero] at hp
        obtain rfl := Option.some.inj hp
        have hb : b ∈ tl := List.get?_mem hj
        exact hnd.2.2 hkc (List.mem_flatten.mpr ⟨b, hb, hkb⟩)
      | succ p' =>
        have := ih j' p' b c hnd.2.1 hj hp hkb hkc
        omega

/-! ### Concrete providers and batch splits used by witnesses -/

/-- A provider whose every call returns a one-column dataframe for `"x"`. -/
def provSucceedX : Nat → Nat → Option Df := fun _ _ => some [("x", [50])]

/-- A provider returning a full three-column dataframe on every call. -/
def provThreeCols : Nat → Nat → Option Df :=
  fun _ _ => some [("p", [1]), ("q", [2]), ("r", [3])]

/-- A provider for which batch 2 always raises and every other batch
succeeds with columns for `"p"` and `"q"`. -/
def provBatchTwoDown : Nat → Nat → Option Df :=
  fun i _ => if i = 2 then none else some [("p", [10]), ("q", [20])]

/-- A one-batch provider whose every call raises. -/
def provAlwaysRaise : Nat → Option Df := fun _ => none

/-- A two-argument provider whose every call raises. -/
def provAllRaise : Nat → Nat → Option Df := fun _ _ => none

/-- A one-batch provider whose every call returns the empty dataframe. -/
def provEmptyDf : Nat → Option Df := fun _ => some []

/-- A one-batch provider returning a dataframe with a column for `"a"` and
the `isPartial` marker column, but no column for `"b"`. -/
def provMixed : Nat → Option Df := fun _ => some [("a", [2, 4]), ("isPartial", [1])]

theorem batchChunks_x_5 : batchChunks ["x"] 5 = [["x"]] := by
  rw [batchChunks_unfold_pos _ _ (by decide)]
  show ["x"] :: batchChunks [] 5 = _
  rw [batchChunks_nil]

theorem batchChunks_pqr_2 : batchChunks ["p", "q", "r"] 2 = [["p", "q"], ["r"]] := by
  rw [batchChunks_unfold_pos _ _ (by decide)]
  show ["p", "q"] :: batchChunks ["r"] 2 = _
  rw [batchChunks_unfold_pos _ _ (by decide)]
  show ["p", "q"] :: ["r"] :: batchChunks [] 2 = _
  rw [batchChunks_nil]

theorem batchChunks_pqrs_2 :
    batchChunks ["p", "q", "r", "s"] 2 = [["p", "q"], ["r", "s"]] := by
  rw [batchChunks_unfold_pos _ _ (by decide)]
  show ["p", "q"] :: batchChunks ["r", "s"] 2 = _
  rw [batchChunks_unfold_pos _ _ (by decide)]
  show ["p", "q"] :: ["r", "s"] :: batchChunks [] 2 = _
  rw [batchChunks_nil]

/-! ### Claims about the TrendsFetcher (C2, C5, C10) -/

/-- C2 counterexample: a run with a single batch whose only attempt succeeds
sleeps the inter-batch delay *after the last batch*: the trace of the run is
exactly one provider attempt followed by the 15-second delay sleep, although
batch 1 is the last batch — contradicting "never performed after the last
batch". -/
theorem C2_counterexample :
    batchChunks ["x"] 5 = [["x"]]
    ∧ (fetch_google_trends provSucceedX ["x"] 3 5 5 15).2
        = [FetchEv.attempt 1 1, FetchEv.sleepDelay 1 15] := by
  refine ⟨batchChunks_x_5, ?_⟩
  rw [fetch_google_trends, batchChunks_x_5]
  rfl

/-- C2 (amended): the inter-batch delay sleep is performed after every batch
that succeeds — *including* the last batch of the run — and is never
performed after a batch that exhausted its retries: for every run, the trace
contains the delay sleep of batch `j+1` iff that batch succeeded. -/
theorem C2_delay_iff_success (prov : Nat → Nat → Option Df) (keywords : List String)
    (retries backoff batch_size delay j : Nat) (b : List String)
    (hj : (batchChunks keywords batch_size).get? j = some b) :
    FetchEv.sleepDelay (j + 1) delay
        ∈ (fetch_google_trends prov keywords retries backoff batch_size delay).2
      ↔ (runBatch (prov (j + 1)) (j + 1) b retries backoff delay).2.2 = true := by
  have h := fetchLoop_delay_iff prov retries backoff delay
    (batchChunks keywords batch_size) 1 j b hj
  rw [Nat.add_comm 1 j] at h
  rw [fetch_google_trends]
  exact h

theorem C2_delay_iff_success_witness :
    FetchEv.sleepDelay 1 15 ∈ (fetch_google_trends provSucceedX ["x"] 3 5 5 15).2 := by
  have hj : (batchChunks ["x"] 5).get? 0 = some ["x"] := by
    rw [batchChunks_x_5]
    rfl
  exact (C2_delay_iff_success provSucceedX ["x"] 3 5 5 15 0 ["x"] hj).mpr rfl

/-- C5: if every batch's provider call succeeds on some attempt with a
response containing a column for every keyword of the batch, then fetch
returns exactly one TrendRecord per input keyword, in input order — so in
particular the set of returned keywords equals the input keyword set. -/
theorem C5_complete_fetch (prov : Nat → Nat → Option Df) (keywords : List String)
    (retries backoff batch_size delay : Nat) (hbs : 1 ≤ batch_size)
    (hall : ∀ j b, (batchChunks keywords batch_size).get? j = some b →
      completeSuccess (prov (j + 1)) b retries) :
    ((fetch_google_trends prov keywords retries backoff batch_size delay).1).map
        TrendRecord.keyword = keywords := by
  have hgen : ∀ (bs : List (List String)) (i : Nat),
      (∀ j b, bs.get? j = some b → completeSuccess (prov (i + j)) b retries) →
      ((fetchLoop prov bs i retries backoff delay).1).map TrendRecord.keyword
        = bs.flatten := by
    intro bs
    induction bs with
    | nil =>
      intro i _
      rfl
    | cons hd tl ih =>
      intro i hcs
      rw [fetchLoop_cons, List.map_append, List.flatten_cons]
      congr 1
      · have h0 := hcs 0 hd List.get?_cons_zero
        rw [Nat.add_zero] at h0
        exact (runBatch_complete (prov i) i hd retries backoff delay h0).1
      · apply ih (i + 1)
        intro j b hj
        have h1 := hcs (j + 1) b hj
        rw [show i + (j + 1) = (i + 1) + j by omega] at h1
        exact h1
  have h1 : ∀ j b, (batchChunks keywords batch_size).get? j = some b →
      completeSuccess (prov (1 + j)) b retries := by
    intro j b hj
    rw [Nat.add_comm 1 j]
    exact hall j b hj
  rw [fetch_google_trends, hgen (batchChunks keywords batch_size) 1 h1]
  exact batchChunks_flatten keywords batch_size hbs

theorem C5_complete_fetch_witness :
    ((fetch_google_trends provThreeCols ["p", "q", "r"] 2 0 2 0).1).map
        TrendRecord.keyword = ["p", "q", "r"] := by
  apply C5_complete_fetch provThreeCols ["p", "q", "r"] 2 0 2 0 (by decide)
  intro j b hj
  rw [batchChunks_pqr_2] at hj
  cases j with
  | zero =>
    obtain rfl := Option.some.inj hj
    exact ⟨0, by decide, fun n hn => absurd hn (Nat.not_lt_zero n), rfl, by decide⟩
  | succ j' =>
    cases j' with
    | zero =>
      obtain rfl := Option.some.inj hj
      exact ⟨0, by decide, fun n hn => absurd hn (Nat.not_lt_zero n), rfl, by decide⟩
    | succ j'' =>
      exact Option.noConfusion hj

/-- C10: with `retries = 0` the `while attempt < retries` loop body is never
entered for any batch: no provider attempt is made, no sleep happens (the
trace is empty) and the returned record list is empty.  The model assumes a
positive `batch_size` (line 117 divides by it). -/
theorem C10_zero_retries (prov : Nat → Nat → Option Df) (keywords : List String)
    (backoff batch_size delay : Nat) (_hbs : 1 ≤ batch_size) :
    fetch_google_trends prov keywords 0 backoff batch_size delay = ([], []) := by
  have h : ∀ (bs : List (List String)) (i : Nat),
      fetchLoop prov bs i 0 backoff delay = ([], []) := by
    intro bs
    induction bs with
    | nil =>
      intro i
      rfl
    | cons hd tl ih =>
      intro i
      rw [fetchLoop_cons, ih (i + 1)]
      rfl
  rw [fetch_google_trends]
  exact h _ 1

theorem C10_zero_retries_witness :
    fetch_google_trends provAllRaise ["a", "b", "c"] 0 4 2 7 = ([], []) :=
  C10_zero_retries provAllRaise ["a", "b", "c"] 4 2 7 (by decide)

/-! ### Claims about batch isolation, backoff and response validation
(C6, C7, C8) -/

/-- C6: if one batch fails on all of its `retries` attempts, then no keyword
of that batch appears in the fetch output, while the run continues and the
output is exactly the concatenation, in order, of every other batch's
records (the exhausted batch contributing nothing). -/
theorem C6_exhausted_batch_isolated (prov : Nat → Nat → Option Df)
    (keywords : List String) (retries backoff batch_size delay j : Nat)
    (b : List String) (hnd : keywords.Nodup) (hbs : 1 ≤ batch_size)
    (hj : (batchChunks keywords batch_size).get? j = some b)
    (hfail : ∀ n, n < retries → attemptFails (prov (j + 1) n) = true) :
    (∀ kw ∈ b, kw ∉ ((fetch_google_trends prov keywords retries backoff
        batch_size delay).1).map TrendRecord.keyword)
    ∧ (fetch_google_trends prov keywords retries backoff batch_size delay).1
        = (List.enumFrom 1 (batchChunks keywords batch_size)).flatMap
            (fun p => if p.1 = j + 1 then []
              else (runBatch (prov p.1) p.1 p.2 retries backoff delay).1) := by
  have hc2 : (fetch_google_trends prov keywords retries backoff batch_size delay).1
      = (List.enumFrom 1 (batchChunks keywords batch_size)).flatMap
          (fun p => if p.1 = j + 1 then []
            else (runBatch (prov p.1) p.1 p.2 retries backoff delay).1) := by
    rw [fetch_google_trends,
      fetchLoop_records_flatMap prov retries backoff delay
        (batchChunks keywords batch_size) 1]
    apply flatMap_congr_mem
    intro p hp
    by_cases hpi : p.1 = j + 1
    · rw [if_pos hpi]
      obtain ⟨pi, px⟩ := p
      simp only at hpi
      subst hpi
      obtain ⟨h1, h2, h3⟩ := List.mem_enumFrom hp
      have hlt : j < (batchChunks keywords batch_size).length := by omega
      have hgetj : (batchChunks keywords batch_size).get? j
          = some ((batchChunks keywords batch_size)[j]) := by
        rw [List.get?_eq_getElem?, List.getElem?_eq_getElem hlt]
      rw [hj] at hgetj
      have hpx : px = b := h3.trans (Option.some.inj hgetj).symm
      rw [hpx]
      exact (runBatch_all_fail (prov (j + 1)) (j + 1) b retries backoff delay hfail).1
    · rw [if_neg hpi]
  refine ⟨?_, hc2⟩
  intro kw hkwb hkwmem
  obtain ⟨r, hr, hrkw⟩ := List.mem_map.mp hkwmem
  rw [hc2] at hr
  obtain ⟨p, hp, hrin⟩ := List.mem_flatMap.mp hr
  obtain ⟨pi, px⟩ := p
  by_cases hpi : pi = j + 1
  · exact absurd hrin (by simp [hpi])
  · have hrin' : r ∈ (runBatch (prov pi) pi px retries backoff delay).1 := by
      simpa [hpi] using hrin
    have hkpx : r.keyword ∈ px :=
      attemptLoop_records_keyword (prov pi) pi px backoff delay retries 0 r hrin'
    obtain ⟨h1, h2, h3⟩ := List.mem_enumFrom hp
    have hlt : pi - 1 < (batchChunks keywords batch_size).length := by omega
    have hget2 : (batchChunks keywords batch_size).get? (pi - 1) = some px := by
      rw [List.get?_eq_getElem?, List.getElem?_eq_getElem hlt]
      exact congrArg some h3.symm
    have heq := flatten_nodup_get_unique kw (batchChunks keywords batch_size)
      j (pi - 1) b px
      (by rw [batchChunks_flatten keywords batch_size hbs]; exact hnd)
      hj hget2 hkwb (hrkw ▸ hkpx)
    omega

theorem C6_exhausted_batch_isolated_witness :
    "r" ∉ ((fetch_google_trends provBatchTwoDown ["p", "q", "r", "s"] 2 0 2 0).1).map
        TrendRecord.keyword := by
  have h := C6_exhausted_batch_isolated provBatchTwoDown ["p", "q", "r", "s"]
    2 0 2 0 1 ["r", "s"] (by decide) (by decide)
    (by rw [batchChunks_pqrs_2]; rfl) (by decide)
  exact h.1 "r" (by decide)

theorem attemptLoop_backoff_prefix (prov : Nat → Option Df) (i : Nat)
    (kw : List String) (backoff delay : Nat) :
    ∀ k remaining attempt,
      (∀ n, attempt ≤ n → n < attempt + k → attemptFails (prov n) = true) →
      k < remaining →
      ((attemptLoop prov i kw backoff delay remaining attempt).2.1).take (2 * k)
        = (List.range k).flatMap (fun m =>
            [FetchEv.attempt i (attempt + m + 1),
             FetchEv.sleepBackoff i (backoff * (attempt + m + 1))]) := by
  intro k
  induction k with
  | zero =>
    intro remaining attempt _ _
    simp
  | succ k ih =>
    intro remaining attempt hfail hlt
    have hf0 : attemptFails (prov attempt) = true :=
      hfail attempt (Nat.le_refl _) (by omega)
    obtain ⟨r, rfl⟩ : ∃ r, remaining = (r + 1) + 1 := ⟨remaining - 2, by omega⟩
    rw [attemptLoop_fail_step prov i kw backoff delay attempt r hf0]
    have hih := ih (r + 1) (attempt + 1)
      (fun n h1 h2 => hfail n (by omega) (by omega)) (by omega)
    rw [show 2 * (k + 1) = 2 * k + 1 + 1 by ring, List.take_succ_cons,
      List.take_succ_cons, hih]
    rw [List.range_succ_eq_map, List.flatMap_cons, List.flatMap_map]
    simp only [Nat.add_zero, List.cons_append, List.nil_append]
    congr 1
    congr 1
    apply flatMap_congr_mem
    intro m _
    have he : attempt + 1 + m + 1 = attempt + (m + 1) + 1 := by omega
    simp only [Nat.succ_eq_add_one, he]

/-- C7: for a batch whose first `k` attempts fail (`k < retries`), the trace
starts with `k` attempt/backoff pairs whose backoff sleeps last exactly
`backoff × n` seconds before attempt `n + 1`, for `n = 1, ..., k` — linear
backoff with the attempt counter starting at 1. -/
theorem C7_linear_backoff (prov : Nat → Option Df) (i : Nat) (b : List String)
    (retries backoff delay k : Nat) (hk : k < retries)
    (hf : ∀ n, n < k → attemptFails (prov n) = true) :
    ((runBatch prov i b retries backoff delay).2.1).take (2 * k)
      = (List.range k).flatMap (fun m =>
          [FetchEv.attempt i (m + 1), FetchEv.sleepBackoff i (backoff * (m + 1))]) := by
  have h := attemptLoop_backoff_prefix prov i b backoff delay k retries 0
    (fun n _ h2 => hf n (by omega)) hk
  simp only [Nat.zero_add] at h
  exact h

theorem C7_linear_backoff_witness :
    ((runBatch provAlwaysRaise 1 ["x"] 3 5 0).2.1).take (2 * 2)
      = [FetchEv.attempt 1 1, FetchEv.sleepBackoff 1 5,
         FetchEv.attempt 1 2, FetchEv.sleepBackoff 1 10] := by
  rw [C7_linear_backoff provAlwaysRaise 1 ["x"] 3 5 0 2 (by decide) (fun n _ => rfl)]
  rfl

/-- C8: (1) an empty-dataframe response is treated exactly like a raised
exception: replacing an empty-dataframe answer by an exception changes
nothing about the loop's records, trace or outcome, so it contributes no
records and triggers the same retry path; (2) a non-empty partial response
accepted on the first attempt succeeds, and each requested keyword present
in the (isPartial-stripped) response yields exactly one TrendRecord whose
score is the mean of its series, while each absent keyword yields none. -/
theorem C8_empty_and_partial_response :
    (∀ (prov : Nat → Option Df) (i : Nat) (kw_batch : List String)
        (backoff delay remaining attempt a : Nat), prov a = some [] →
        attemptLoop prov i kw_batch backoff delay remaining attempt
          = attemptLoop (Function.update prov a none) i kw_batch backoff delay
              remaining attempt)
    ∧ (∀ (prov : Nat → Option Df) (i : Nat) (kw_batch : List String)
        (retries backoff delay : Nat), 0 < retries →
        attemptFails (prov 0) = false → kw_batch.Nodup →
        (runBatch prov i kw_batch retries backoff delay).2.2 = true
        ∧ (∀ kw s, kw ∈ kw_batch → (respOf (prov 0)).lookup kw = some s →
            List.count kw (((runBatch prov i kw_batch retries backoff delay).1).map
                TrendRecord.keyword) = 1
            ∧ (⟨kw, meanSeries s⟩ : TrendRecord)
                ∈ (runBatch prov i kw_batch retries backoff delay).1)
        ∧ (∀ kw, kw ∈ kw_batch → (respOf (prov 0)).lookup kw = none →
            kw ∉ ((runBatch prov i kw_batch retries backoff delay).1).map
              TrendRecord.keyword)) := by
  constructor
  · intro prov i kw_batch backoff delay remaining
    induction remaining with
    | zero =>
      intro attempt a hpa
      rfl
    | succ rem ih =>
      intro attempt a hpa
      have hfa : attemptFails (Function.update prov a none attempt)
          = attemptFails (prov attempt) := by
        by_cases h' : attempt = a
        · subst h'
          rw [Function.update_same, hpa]
          rfl
        · rw [Function.update_noteq h']
      cases hf : attemptFails (prov attempt) with
      | true =>
        cases rem with
        | zero =>
          rw [attemptLoop_fail_last prov i kw_batch backoff delay attempt hf,
            attemptLoop_fail_last _ i kw_batch backoff delay attempt
              (by rw [hfa]; exact hf)]
        | succ r =>
          rw [attemptLoop_fail_step prov i kw_batch backoff delay attempt r hf,
            attemptLoop_fail_step _ i kw_batch backoff delay attempt r
              (by rw [hfa]; exact hf),
            ih (attempt + 1) a hpa]
      | false =>
        have hne : attempt ≠ a := by
          intro he
          rw [he, hpa] at hf
          exact absurd hf (by simp [attemptFails])
        rw [attemptLoop_success prov i kw_batch backoff delay attempt rem hf,
          attemptLoop_success _ i kw_batch backoff delay attempt rem
            (by rw [hfa]; exact hf),
          Function.update_noteq hne]
  · intro prov i kw_batch retries backoff delay hr h0 hnd
    obtain ⟨rt, rfl⟩ : ∃ rt, retries = rt + 1 := ⟨retries - 1, by omega⟩
    have hrb : runBatch prov i kw_batch (rt + 1) backoff delay
        = (extractRecords (respOf (prov 0)) kw_batch,
           [FetchEv.attempt i 1, FetchEv.sleepDelay i delay], true) := by
      rw [runBatch, attemptLoop_success prov i kw_batch backoff delay 0 rt h0]
    have hrec1 : (runBatch prov i kw_batch (rt + 1) backoff delay).1
        = extractRecords (respOf (prov 0)) kw_batch := by rw [hrb]
    have hsucc : (runBatch prov i kw_batch (rt + 1) backoff delay).2.2 = true := by
      rw [hrb]
    refine ⟨hsucc, ?_, ?_⟩
    · intro kw s hkw hlook
      constructor
      · rw [hrec1, extractRecords_map_keyword,
          List.count_filter (by rw [hlook]; rfl)]
        exact List.count_eq_one_of_mem hnd hkw
      · rw [hrec1]
        exact List.mem_filterMap.mpr ⟨kw, hkw, by rw [hlook]; rfl⟩
    · intro kw hkw hlook
      rw [hrec1, extractRecords_map_keyword]
      intro hmem
      have hsome := (List.mem_filter.mp hmem).2
      rw [hlook] at hsome
      exact absurd hsome (by simp)

theorem C8_empty_and_partial_response_witness :
    (attemptLoop provEmptyDf 1 ["a"] 5 15 2 0
        = attemptLoop (Function.update provEmptyDf 0 none) 1 ["a"] 5 15 2 0)
    ∧ (runBatch provMixed 1 ["a", "b"] 1 5 15).2.2 = true
    ∧ (⟨"a", meanSeries [2, 4]⟩ : TrendRecord) ∈ (runBatch provMixed 1 ["a", "b"] 1 5 15).1
    ∧ "b" ∉ ((runBatch provMixed 1 ["a", "b"] 1 5 15).1).map TrendRecord.keyword := by
  have hb := C8_empty_and_partial_response.2 provMixed 1 ["a", "b"] 1 5 15
    (by decide) rfl (by decide)
  exact ⟨C8_empty_and_partial_response.1 provEmptyDf 1 ["a"] 5 15 2 0 0 rfl,
    hb.1, (hb.2.1 "a" [2, 4] (by decide) rfl).2, hb.2.2 "b" (by decide) rfl⟩
